import Mathlib

/-!
Verification of the move-selection core of the Lichess-Bot repository.

The development shallowly embeds the decision procedure of
`src/engine.py` (class `YourStyleEngine`) and the preference-table
loader of `src/trainer.py` (`load_fen_stats`), and proves the frozen
claims about them.

Modelling conventions:
* A chess position (`chess.Board`) is represented by the observable
  fields the engine code reads: the FEN string, the legal-move list,
  the side to move, the piece map, and the move-stack length.  The
  chess library operations the code calls (`parse_san`, `push`) are
  abstract parameters bundled in `ChessLib`; `copy(stack=False)` has
  known semantics (same position, empty stack) and is defined directly.
* The external Stockfish process is an abstract oracle (`EvalOracle`)
  whose operations return `none` to model a raised exception.
* Python ints are `Int`; Python `//` is `Int.fdiv` (floor division).
* The translation of each engine function additionally returns the
  list of external-engine calls it performs (to reason about which
  Evaluator calls happen) and the final value of the `board` argument
  (to reason about mutation of the caller's board object).
-/

/-- A chess move, identified by its UCI text.  Only identity of moves
matters to the engine code, never their internal structure. -/
structure ChessMove where
  uci : String
deriving DecidableEq, Repr

/-- Observable state of a `chess.Board` object as read by
`src/engine.py`: `board.fen()`, `board.legal_moves`, `board.turn`
(`true` = white), `board.piece_map()` (square/piece pairs) and the
length of `board.move_stack`. -/
structure BoardData where
  fen : String
  legalMoves : List ChessMove
  turn : Bool
  pieceMap : List (Nat × Nat)
  moveStackLen : Nat
deriving DecidableEq, Repr

/-- Translation of `board.copy(stack=False)`: a new board with the same
position fields and an empty move stack. -/
def BoardData.copyNoStack (b : BoardData) : BoardData :=
  { b with moveStackLen := 0 }

/-- Abstract interface to the chess library (python-chess) operations
called by the engine core.  Chess rules themselves are out of scope of
the spec, so these are arbitrary functions.
`parseSan b s = none` models `board.parse_san(s)` raising `ValueError`
(including its subclasses used by python-chess). -/
structure ChessLib where
  parseSan : BoardData → String → Option ChessMove
  push : BoardData → ChessMove → BoardData

/-- A record of one request made to the external engine process. -/
inductive EngineCall where
  /-- An `engine.analyse(board, Limit(depth))` request. -/
  | analyseCall (b : BoardData) (depth : Int)
  /-- An `engine.play(board, Limit(depth))` request. -/
  | playCall (b : BoardData) (depth : Int)
deriving DecidableEq, Repr

/-- Abstract external evaluator (the `chess.engine.SimpleEngine` handle).
`analyse b d = none` models the `try` block raising; `analyse b d =
some none` models `info.get("score") is None`; `analyse b d = some
(some f)` models a score object with `f c` the value of
`score_obj.pov(c).score(mate_score=100000)` (an `int`, since
`mate_score` is supplied).  `play b d = none` models `engine.play`
raising; `play b d = some mv` models a `PlayResult` whose `move` field
is `mv` (`none` when the engine reports no move). -/
structure EvalOracle where
  analyse : BoardData → Int → Option (Option (Bool → Int))
  play : BoardData → Int → Option (Option ChessMove)

/-- Translation of the configuration dataclass `YourStyleEngineConfig`
(engine.py lines 14-29); the two path fields are not part of the
decision logic and are omitted. -/
structure YourStyleEngineConfig where
  stockfishDepth : Int := 12
  stockfishEndgameDepth : Int := 20
  endgamePieceCount : Int := 10
  useStockfishFilter : Bool := true
  maxCandidateMoves : Int := 3
  blunderThresholdCp : Int := 200
  useStockfishFallback : Bool := true
deriving Repr

/-- The persisted preference table `FenStats = Dict[str, Dict[str, int]]`
(trainer.py line 11), as an association list in insertion order. -/
abbrev FenStatsData := List (String × List (String × Int))

/-- State of a `YourStyleEngine` instance as used by `pick_move`:
its configuration, the loaded stats, and the optional engine handle
(`self.engine`). -/
structure YourStyleEngine where
  config : YourStyleEngineConfig
  stats : FenStatsData
  engineOpt : Option EvalOracle

/-- The error raised at engine.py line 74:
`raise ValueError("Oynanacak yasal hamle yok.")` (no legal move). -/
inductive PickError where
  | noLegalMove
deriving DecidableEq, Repr

/-- Translation of `self.stats.get(fen)`: first-match lookup in the
(unique-keyed) dictionary. -/
def lookupStats : FenStatsData → String → Option (List (String × Int))
  | [], _ => none
  | (k, v) :: rest, fen => if k = fen then some v else lookupStats rest fen

/-- Translation of Python `max(l, key=k)` on the non-empty list
`x :: xs`: Python `max` scans left to right and replaces the current
best only on a strictly greater key, so it returns the first element
attaining the maximal key. -/
def pyMaxFrom {α : Type} (k : α → Int) (x : α) : List α → α
  | [] => x
  | y :: ys => if k x < k y then pyMaxFrom k y ys else pyMaxFrom k x ys

/-- One insertion step of the stable descending sort (see
`sortDescBy`): the inserted element goes before the first element whose
key is not greater than its own, hence before equal-keyed elements that
were originally after it. -/
def insertDescBy {α : Type} (k : α → Int) (x : α) : List α → List α
  | [] => [x]
  | y :: ys => if k y ≤ k x then x :: y :: ys else y :: insertDescBy k x ys

/-- Translation of `legal_candidates.sort(key=lambda mc: mc[1],
reverse=True)` (engine.py line 104): Python's sort is stable, and with
`reverse=True` equal-keyed elements still keep their original relative
order, which this insertion sort reproduces. -/
def sortDescBy {α : Type} (k : α → Int) : List α → List α
  | [] => []
  | x :: xs => insertDescBy k x (sortDescBy k xs)

/-- Key function for `(move, count)` candidate pairs. -/
def countKey (mc : ChessMove × Int) : Int := mc.2

/-- Count of a scored `(move, count, score)` triple. -/
def cntOf (x : ChessMove × Int × Int) : Int := x.2.1

/-- Score of a scored `(move, count, score)` triple. -/
def scoreOf (x : ChessMove × Int × Int) : Int := x.2.2

/-- Translation of the candidate-collection loop of `_from_your_stats`
(engine.py lines 83-91): for each `(san, count)` entry, resolve the SAN
against the board (dropping entries whose parse raises) and keep only
moves that are in `board.legal_moves`. -/
def collectLegalCandidates (lib : ChessLib) (board : BoardData) :
    List (String × Int) → List (ChessMove × Int)
  | [] => []
  | (san, count) :: rest =>
    match lib.parseSan board san with
    | none => collectLegalCandidates lib board rest
    | some move =>
      if move ∈ board.legalMoves then
        (move, count) :: collectLegalCandidates lib board rest
      else
        collectLegalCandidates lib board rest

/-- Translation of `_piece_count` (engine.py lines 148-150):
`sum(1 for _ in board.piece_map().values())`. -/
def piece_count (board : BoardData) : Nat :=
  (board.pieceMap.map fun _ => 1).sum

/-- Translation of `_stockfish_depth_for_position` (engine.py lines
152-156): the endgame depth when the piece count is at most the
configured endgame threshold, the base depth otherwise. -/
def stockfish_depth_for_position (cfg : YourStyleEngineConfig)
    (board : BoardData) : Int :=
  if (piece_count board : Int) ≤ cfg.endgamePieceCount then
    cfg.stockfishEndgameDepth
  else
    cfg.stockfishDepth

/-- Translation of the evaluation loop of `_from_your_stats`
(engine.py lines 111-126).  For each candidate, the move is pushed on
`board.copy(stack=False)` and that scratch board is analysed at depth
`max(4, depth // 2)`; candidates whose analysis raises or carries no
score are dropped.  Returns the `scored` list, the analyse requests
made, and the final value of the `board` object (threaded explicitly:
only the scratch copies are ever pushed to). -/
def scoreCandidates (lib : ChessLib) (oracle : EvalOracle)
    (board : BoardData) (ourColor : Bool) (depth : Int) :
    List (ChessMove × Int) →
      List (ChessMove × Int × Int) × List EngineCall × BoardData
  | [] => ([], [], board)
  | (move, count) :: rest =>
    let tmpBoard := lib.push (BoardData.copyNoStack board) move
    let limitDepth := max 4 (Int.fdiv depth 2)
    let res := scoreCandidates lib oracle board ourColor depth rest
    match oracle.analyse tmpBoard limitDepth with
    | none =>
      (res.1, .analyseCall tmpBoard limitDepth :: res.2.1, res.2.2)
    | some none =>
      (res.1, .analyseCall tmpBoard limitDepth :: res.2.1, res.2.2)
    | some (some povScore) =>
      ((move, count, povScore ourColor) :: res.1,
        .analyseCall tmpBoard limitDepth :: res.2.1, res.2.2)

/-- Translation of the scored-candidate decision (engine.py lines
133-146), given the non-empty `scored` list `s0 :: rest`: compute
`best_eval`, drop candidates more than `blunder_threshold_cp` below it,
return the best-scoring candidate if none survive, otherwise the
surviving candidate with the highest count. -/
def chooseFromScored (cfg : YourStyleEngineConfig)
    (s0 : ChessMove × Int × Int) (rest : List (ChessMove × Int × Int)) :
    ChessMove :=
  match (s0 :: rest).filter
      (fun mcs => decide
        (scoreOf (pyMaxFrom scoreOf s0 rest) - cfg.blunderThresholdCp ≤ scoreOf mcs)) with
  | [] => (pyMaxFrom scoreOf s0 rest).1
  | f :: fs => (pyMaxFrom cntOf f fs).1

/-- Translation of the evaluator-filtered branch of `_from_your_stats`
(engine.py lines 102-146), applied to the sorted candidate list.  The
empty case is unreachable (the sort of a non-empty list is non-empty)
and mirrors the vacuous behaviour of the loop on an empty list. -/
def filterSelect (lib : ChessLib) (oracle : EvalOracle)
    (cfg : YourStyleEngineConfig) (board : BoardData) :
    List (ChessMove × Int) →
      Option ChessMove × List EngineCall × BoardData
  | [] => (none, [], board)
  | sc :: scs =>
    match scoreCandidates lib oracle board board.turn
        (stockfish_depth_for_position cfg board)
        ((sc :: scs).take (max 1 cfg.maxCandidateMoves).toNat) with
    | ([], tr, b1) => (some (pyMaxFrom countKey sc scs).1, tr, b1)
    | (s :: ss, tr, b1) => (some (chooseFromScored cfg s ss), tr, b1)

/-- Translation of `_from_your_stats` from the candidate list onwards
(engine.py lines 93-146): nothing when no legal candidate resolved;
with no engine or the filter disabled, the candidate with the highest
count (Python `max`, first on ties); otherwise the filtered selection
on the list sorted by count descending. -/
def fromCandidates (lib : ChessLib) (engineOpt : Option EvalOracle)
    (cfg : YourStyleEngineConfig) (board : BoardData) :
    List (ChessMove × Int) →
      Option ChessMove × List EngineCall × BoardData
  | [] => (none, [], board)
  | c :: cs =>
    match engineOpt with
    | none => (some (pyMaxFrom countKey c cs).1, [], board)
    | some oracle =>
      if !cfg.useStockfishFilter then
        (some (pyMaxFrom countKey c cs).1, [], board)
      else
        filterSelect lib oracle cfg board (sortDescBy countKey (c :: cs))

/-- Translation of `_from_your_stats` (engine.py lines 77-146):
look up the board's FEN in the stats; return nothing when the lookup
misses or yields an empty table (`if not moves_stats`), otherwise
continue with the resolved legal candidates. -/
def from_your_stats (lib : ChessLib) (engineOpt : Option EvalOracle)
    (cfg : YourStyleEngineConfig) (stats : FenStatsData)
    (board : BoardData) :
    Option ChessMove × List EngineCall × BoardData :=
  match lookupStats stats board.fen with
  | none => (none, [], board)
  | some movesStats =>
    if movesStats = [] then (none, [], board)
    else
      fromCandidates lib engineOpt cfg board
        (collectLegalCandidates lib board movesStats)

/-- Translation of `_from_stockfish` (engine.py lines 158-168):
nothing when no engine handle is present; otherwise one `engine.play`
request at the position-dependent depth, whose raised exception
(`none`) or missing move is converted to `none`. -/
def from_stockfish (engineOpt : Option EvalOracle)
    (cfg : YourStyleEngineConfig) (board : BoardData) :
    Option ChessMove × List EngineCall × BoardData :=
  match engineOpt with
  | none => (none, [], board)
  | some oracle =>
    let depth := stockfish_depth_for_position cfg board
    match oracle.play board depth with
    | none => (none, [.playCall board depth], board)
    | some mv => (mv, [.playCall board depth], board)

/-- A parsed JSON value as produced by `json.load` (trainer.py line
56).  JSON numbers are modelled as integers; fractional numbers are
outside the scope of this embedding. -/
inductive JValue where
  | jnull
  | jbool (b : Bool)
  | jint (n : Int)
  | jstr (s : String)
  | jarr (elems : List JValue)
  | jobj (fields : List (String × JValue))

/-- The Python exceptions that `load_fen_stats` can raise. -/
inductive PyError where
  | attributeError
  | valueError
  | typeError
deriving DecidableEq, Repr

/-- Digits of a decimal numeral, as read by Python `int(str)`. -/
def digitsToNat : List Char → Option Nat
  | [] => none
  | cs =>
    if cs.all Char.isDigit then
      some (cs.foldl (fun a c => a * 10 + (c.toNat - 48)) 0)
    else
      none

/-- Sign handling of Python `int(str)`. -/
def pyIntOfChars : List Char → Option Int
  | '+' :: cs => (digitsToNat cs).map Int.ofNat
  | '-' :: cs => (digitsToNat cs).map (fun n => -(n : Int))
  | cs => (digitsToNat cs).map Int.ofNat

/-- Python `int` applied to a string: surrounding whitespace is
stripped, then an optional sign and decimal digits are accepted
(digit-grouping underscores are not modelled); anything else raises
`ValueError`. -/
def pyIntOfString (s : String) : Option Int :=
  pyIntOfChars s.trim.toList

/-- Python `int(x)` on a JSON value: ints are returned unchanged,
bools (a subclass of int) become 0/1, integer-shaped strings are
parsed, and everything else raises (`ValueError` for a malformed
string, `TypeError` for null/arrays/objects). -/
def pyIntOfJson : JValue → Except PyError Int
  | .jbool b => .ok (if b then 1 else 0)
  | .jint n => .ok n
  | .jstr s =>
    match pyIntOfString s with
    | some n => .ok n
    | none => .error .valueError
  | _ => .error .typeError

/-- Translation of the inner comprehension of `load_fen_stats`
(trainer.py line 58): `{san: int(count) for san, count in
moves.items()}`, items visited in order, first failing `int` raising. -/
def intMoves : List (String × JValue) → Except PyError (List (String × Int))
  | [] => .ok []
  | (san, v) :: rest => do
    let n ← pyIntOfJson v
    let t ← intMoves rest
    .ok ((san, n) :: t)

/-- Translation of the outer comprehension of `load_fen_stats`
(trainer.py line 58): each value must itself be an object
(`moves.items()` raises `AttributeError` otherwise). -/
def loadEntries :
    List (String × JValue) → Except PyError FenStatsData
  | [] => .ok []
  | (fen, v) :: rest =>
    match v with
    | .jobj inner => do
      let ms ← intMoves inner
      let t ← loadEntries rest
      .ok ((fen, ms) :: t)
    | _ => .error .attributeError

/-- Translation of `load_fen_stats` (trainer.py lines 54-58) applied
to the already-parsed JSON document: `data.items()` requires the top
level to be an object, then the nested comprehension runs. -/
def load_fen_stats (data : JValue) : Except PyError FenStatsData :=
  match data with
  | .jobj fields => loadEntries fields
  | _ => .error .attributeError

/-- Modelled from the spec (section 3, Preference Table): the required
shape of the backing data, a mapping from position keys to mappings
from move notation to non-negative integer counts.  Used only to state
claim C9 against the loader translated from the source. -/
def isNonNegIntMapping : JValue → Bool
  | .jobj fields => fields.all fun kv =>
    match kv.2 with
    | .jobj inner => inner.all fun kv2 =>
      match kv2.2 with
      | .jint n => decide (0 ≤ n)
      | _ => false
    | _ => false
  | _ => false

/-- Shape of data actually accepted by `load_fen_stats`: an object of
objects whose leaf values Python `int()` accepts (possibly with
coercion).  This is the amended characterisation for claim C9. -/
def isIntConvertibleMapping : JValue → Bool
  | .jobj fields => fields.all fun kv =>
    match kv.2 with
    | .jobj inner => inner.all fun kv2 => (pyIntOfJson kv2.2).isOk
    | _ => false
  | _ => false

/-- Translation of `pick_move` (engine.py lines 57-75): the stats
model first, then (when the fallback is enabled) Stockfish, then the
first legal move; `ValueError` when no legal move exists. -/
def pick_move (lib : ChessLib) (eng : YourStyleEngine)
    (board : BoardData) :
    Except PickError ChessMove × List EngineCall × BoardData :=
  match from_your_stats lib eng.engineOpt eng.config eng.stats board with
  | (some move, tr, board1) => (.ok move, tr, board1)
  | (none, tr, board1) =>
    if eng.config.useStockfishFallback then
      match from_stockfish eng.engineOpt eng.config board1 with
      | (some move, tr2, board2) => (.ok move, tr ++ tr2, board2)
      | (none, tr2, board2) =>
        match board2.legalMoves with
        | [] => (.error .noLegalMove, tr ++ tr2, board2)
        | m :: _ => (.ok m, tr ++ tr2, board2)
    else
      match board1.legalMoves with
      | [] => (.error .noLegalMove, tr, board1)
      | m :: _ => (.ok m, tr, board1)

/-- First-maximum characterisation: `m` is the first element of `l`
attaining the maximal key, exactly how Python `max` breaks ties. -/
def IsFirstMaxBy {α : Type} (k : α → Int) (l : List α) (m : α) : Prop :=
  ∃ l1 l2, l = l1 ++ m :: l2
    ∧ (∀ y ∈ l1, k y < k m) ∧ (∀ y ∈ l2, k y ≤ k m)

/-- Sample move used for concrete checks. -/
def mvE4 : ChessMove := ⟨"e2e4"⟩

/-- Second sample move used for concrete checks. -/
def mvD4 : ChessMove := ⟨"d2d4"⟩

/-- Sample position with two legal moves and 32 pieces. -/
def bTwo : BoardData :=
  { fen := "startpos", legalMoves := [mvE4, mvD4], turn := true,
    pieceMap := (List.range 32).map fun i => (i, 1), moveStackLen := 0 }

/-- Sample terminal position (zero legal moves, 5 pieces). -/
def bTerm : BoardData :=
  { fen := "matepos", legalMoves := [], turn := true,
    pieceMap := (List.range 5).map fun i => (i, 1), moveStackLen := 0 }

/-- Sample position with 11 pieces (one above the default endgame
threshold of 10). -/
def bMid : BoardData :=
  { fen := "midpos", legalMoves := [mvE4], turn := true,
    pieceMap := (List.range 11).map fun i => (i, 1), moveStackLen := 0 }

/-- Sample chess library: resolves the two SANs used by the sample
stats; pushing appends the move text to the FEN so pushed scratch
boards are distinguishable by the sample oracles. -/
def libSample : ChessLib :=
  { parseSan := fun _ san =>
      if san = "e4" then some mvE4
      else if san = "d4" then some mvD4
      else none
    push := fun b m =>
      { fen := b.fen ++ "/" ++ m.uci, legalMoves := [], turn := !b.turn,
        pieceMap := b.pieceMap, moveStackLen := b.moveStackLen + 1 } }

/-- Sample preference table: e4 played 20 times, d4 played 100 times. -/
def statsSample : FenStatsData := [("startpos", [("e4", 20), ("d4", 100)])]

/-- Sample preference table with counts 10 and 3. -/
def statsTen : FenStatsData := [("startpos", [("e4", 10), ("d4", 3)])]

/-- Sample oracle scoring the position after e4 at +50 and after d4 at
-400 from white's point of view; its best-move operation fails. -/
def oracleScores : EvalOracle :=
  { analyse := fun b _ =>
      if b.fen = "startpos/e2e4" then some (some fun c => if c then 50 else -50)
      else if b.fen = "startpos/d2d4" then
        some (some fun c => if c then -400 else 400)
      else none
    play := fun _ _ => none }

/-- Sample oracle whose every operation raises. -/
def oracleDown : EvalOracle :=
  { analyse := fun _ _ => none, play := fun _ _ => none }

/-- Sample oracle that always proposes e4. -/
def oraclePlaysE4 : EvalOracle :=
  { analyse := fun _ _ => none, play := fun _ _ => some (some mvE4) }

/-- Sample oracle that always proposes d4. -/
def oraclePlaysD4 : EvalOracle :=
  { analyse := fun _ _ => none, play := fun _ _ => some (some mvD4) }

/-- The dataclass default configuration. -/
def cfgDefault : YourStyleEngineConfig := {}

/-- Default configuration with the evaluator filter disabled. -/
def cfgNoFilter : YourStyleEngineConfig := { useStockfishFilter := false }

theorem pyMaxFrom_mem {α : Type} (k : α → Int) (x : α) (xs : List α) :
    pyMaxFrom k x xs ∈ x :: xs := by
  induction xs generalizing x with
  | nil => simp [pyMaxFrom]
  | cons y ys ih =>
    simp only [pyMaxFrom]
    split
    · exact List.mem_cons_of_mem x (ih y)
    · rcases List.mem_cons.mp (ih x) with h | h
      · simp [h]
      · exact List.mem_cons_of_mem x (List.mem_cons_of_mem y h)

theorem pyMaxFrom_ge {α : Type} (k : α → Int) (x : α) (xs : List α) :
    ∀ y ∈ x :: xs, k y ≤ k (pyMaxFrom k x xs) := by
  induction xs generalizing x with
  | nil =>
    intro z hz
    rcases List.mem_cons.mp hz with rfl | hz
    · simp [pyMaxFrom]
    · simp at hz
  | cons y ys ih =>
    intro z hz
    simp only [pyMaxFrom]
    split
    case isTrue hxy =>
      rcases List.mem_cons.mp hz with rfl | hz
      · exact le_trans (le_of_lt hxy) (ih y y (List.mem_cons_self y ys))
      · exact ih y z hz
    case isFalse hxy =>
      rcases List.mem_cons.mp hz with rfl | hz
      · exact ih z z (List.mem_cons_self z ys)
      · rcases List.mem_cons.mp hz with rfl | hz
        · exact le_trans (not_lt.mp hxy) (ih x x (List.mem_cons_self x ys))
        · exact ih x z (List.mem_cons_of_mem x hz)

theorem pyMaxFrom_of_ge {α : Type} (k : α → Int) (x : α) (xs : List α)
    (h : ∀ y ∈ xs, k y ≤ k x) : pyMaxFrom k x xs = x := by
  induction xs with
  | nil => rfl
  | cons y ys ih =>
    simp only [pyMaxFrom]
    rw [if_neg (not_lt.mpr (h y (List.mem_cons_self y ys)))]
    exact ih fun z hz => h z (List.mem_cons_of_mem y hz)

theorem pyMaxFrom_first {α : Type} (k : α → Int) (x : α) (xs : List α) :
    IsFirstMaxBy k (x :: xs) (pyMaxFrom k x xs) := by
  induction xs generalizing x with
  | nil => exact ⟨[], [], rfl, by simp, by simp⟩
  | cons y ys ih =>
    simp only [pyMaxFrom]
    split
    case isTrue hxy =>
      obtain ⟨l1, l2, heq, hlt, hle⟩ := ih y
      refine ⟨x :: l1, l2, by simp [heq], ?_, hle⟩
      intro z hz
      rcases List.mem_cons.mp hz with rfl | hz
      · exact lt_of_lt_of_le hxy (pyMaxFrom_ge k y ys y (List.mem_cons_self y ys))
      · exact hlt z hz
    case isFalse hxy =>
      obtain ⟨l1, l2, heq, hlt, hle⟩ := ih x
      cases l1 with
      | nil =>
        injection heq with h1 h2
        refine ⟨[], y :: ys, by rw [← h1]; rfl, by simp, ?_⟩
        intro z hz
        rcases List.mem_cons.mp hz with rfl | hz
        · exact le_trans (not_lt.mp hxy) (h1 ▸ le_refl (k x))
        · exact hle z (h2 ▸ hz)
      | cons a l1' =>
        injection heq with h1 h2
        refine ⟨x :: y :: l1', l2, ?_, ?_, hle⟩
        · conv_lhs => rw [h2]
          rfl
        intro z hz
        rcases List.mem_cons.mp hz with rfl | hz
        · exact h1 ▸ hlt a (List.mem_cons_self a l1')
        · rcases List.mem_cons.mp hz with rfl | hz
          · exact lt_of_le_of_lt (not_lt.mp hxy)
              (h1 ▸ hlt a (List.mem_cons_self a l1'))
          · exact hlt z (List.mem_cons_of_mem a hz)

theorem IsFirstMaxBy_unique {α : Type} (k : α → Int) (l : List α)
    (m m' : α) (h : IsFirstMaxBy k l m) (h' : IsFirstMaxBy k l m') :
    m = m' := by
  obtain ⟨l1, l2, heq, hlt, hle⟩ := h
  obtain ⟨l1', l2', heq', hlt', hle'⟩ := h'
  rw [heq] at heq'
  rcases List.append_eq_append_iff.mp heq' with ⟨a, ha1, ha2⟩ | ⟨c, hc1, hc2⟩
  · cases a with
    | nil =>
      simp at ha2
      exact ha2.1
    | cons e a' =>
      injection ha2 with hb1 hb2
      exfalso
      have hmem : m ∈ l1' := by
        rw [ha1, ← hb1]
        exact List.mem_append_right l1 (List.mem_cons_self m a')
      have hmem' : m' ∈ l2 := by
        rw [hb2]
        exact List.mem_append_right a' (List.mem_cons_self m' l2')
      exact absurd (hlt' m hmem) (not_lt.mpr (hle m' hmem'))
  · cases c with
    | nil =>
      simp at hc2
      exact hc2.1.symm
    | cons e c' =>
      injection hc2 with hb1 hb2
      exfalso
      have hmem : m' ∈ l1 := by
        rw [hc1, ← hb1]
        exact List.mem_append_right l1' (List.mem_cons_self m' c')
      have hmem' : m ∈ l2' := by
        rw [hb2]
        exact List.mem_append_right c' (List.mem_cons_self m l2)
      exact absurd (hlt m' hmem) (not_lt.mpr (hle' m hmem'))

theorem insertDescBy_perm {α : Type} (k : α → Int) (x : α) (l : List α) :
    (insertDescBy k x l).Perm (x :: l) := by
  induction l with
  | nil => exact List.Perm.refl _
  | cons y ys ih =>
    simp only [insertDescBy]
    split
    · exact List.Perm.refl _
    · exact (List.Perm.cons y ih).trans (List.Perm.swap x y ys)

theorem sortDescBy_perm {α : Type} (k : α → Int) (l : List α) :
    (sortDescBy k l).Perm l := by
  induction l with
  | nil => exact List.Perm.refl _
  | cons x xs ih =>
    exact (insertDescBy_perm k x (sortDescBy k xs)).trans (List.Perm.cons x ih)

theorem insertDescBy_pairwise {α : Type} (k : α → Int) (x : α)
    (l : List α) (h : l.Pairwise fun a b => k b ≤ k a) :
    (insertDescBy k x l).Pairwise fun a b => k b ≤ k a := by
  induction l with
  | nil => simp [insertDescBy]
  | cons y ys ih =>
    rcases List.pairwise_cons.mp h with ⟨hy, hys⟩
    simp only [insertDescBy]
    split
    case isTrue hxy =>
      refine List.pairwise_cons.mpr ⟨?_, h⟩
      intro z hz
      rcases List.mem_cons.mp hz with rfl | hz
      · exact hxy
      · exact le_trans (hy z hz) hxy
    case isFalse hxy =>
      refine List.pairwise_cons.mpr ⟨?_, ih hys⟩
      intro z hz
      rcases List.mem_cons.mp ((insertDescBy_perm k x ys).mem_iff.mp hz)
          with rfl | hz
      · exact le_of_lt (not_le.mp hxy)
      · exact hy z hz

theorem sortDescBy_pairwise {α : Type} (k : α → Int) (l : List α) :
    (sortDescBy k l).Pairwise fun a b => k b ≤ k a := by
  induction l with
  | nil => simp [sortDescBy]
  | cons x xs ih => exact insertDescBy_pairwise k x (sortDescBy k xs) ih

theorem sortDescBy_head {α : Type} (k : α → Int) (c : α) (cs : List α)
    (sc : α) (scs : List α) (h : sortDescBy k (c :: cs) = sc :: scs) :
    IsFirstMaxBy k (c :: cs) sc := by
  induction cs generalizing c sc scs with
  | nil =>
    simp only [sortDescBy, insertDescBy] at h
    injection h with h1 h2
    exact ⟨[], [], by rw [h1]; rfl, by simp, by simp⟩
  | cons y ys ih =>
    cases hsort : sortDescBy k (y :: ys) with
    | nil =>
      have hperm := sortDescBy_perm k (y :: ys)
      rw [hsort] at hperm
      exact absurd hperm.symm.eq_nil (List.cons_ne_nil y ys)
    | cons h0 t0 =>
      have hfm := ih y h0 t0 hsort
      have hsort' : insertDescBy k y (sortDescBy k ys) = h0 :: t0 := hsort
      simp only [sortDescBy] at h
      rw [hsort'] at h
      simp only [insertDescBy] at h
      split at h
      case isTrue hc =>
        injection h with h1 h2
        subst h1
        refine ⟨[], y :: ys, rfl, by simp, ?_⟩
        intro z hz
        have hz' : z ∈ h0 :: t0 := by
          rw [← hsort]
          exact (sortDescBy_perm k (y :: ys)).mem_iff.mpr hz
        have hp := sortDescBy_pairwise k (y :: ys)
        rw [hsort] at hp
        rcases List.mem_cons.mp hz' with rfl | hz'
        · exact hc
        · exact le_trans ((List.pairwise_cons.mp hp).1 z hz') hc
      case isFalse hc =>
        injection h with h1 h2
        subst h1
        obtain ⟨l1, l2, heq, hlt, hle⟩ := hfm
        refine ⟨c :: l1, l2, by rw [List.cons_append, ← heq], ?_, hle⟩
        intro z hz
        rcases List.mem_cons.mp hz with rfl | hz
        · exact not_le.mp hc
        · exact hlt z hz

theorem pyMaxFrom_sortDescBy {α : Type} (k : α → Int) (c : α)
    (cs : List α) (sc : α) (scs : List α)
    (h : sortDescBy k (c :: cs) = sc :: scs) :
    pyMaxFrom k sc scs = pyMaxFrom k c cs := by
  have h1 : pyMaxFrom k sc scs = sc := by
    apply pyMaxFrom_of_ge
    intro z hz
    have hp := sortDescBy_pairwise k (c :: cs)
    rw [h] at hp
    exact (List.pairwise_cons.mp hp).1 z hz
  rw [h1]
  exact IsFirstMaxBy_unique k (c :: cs) sc (pyMaxFrom k c cs)
    (sortDescBy_head k c cs sc scs h) (pyMaxFrom_first k c cs)

theorem scoreCandidates_board (lib : ChessLib) (oracle : EvalOracle)
    (board : BoardData) (ourColor : Bool) (depth : Int)
    (l : List (ChessMove × Int)) :
    (scoreCandidates lib oracle board ourColor depth l).2.2 = board := by
  induction l with
  | nil => rfl
  | cons p rest ih =>
    obtain ⟨move, count⟩ := p
    simp only [scoreCandidates]
    split <;> simpa using ih

theorem scoreCandidates_trace (lib : ChessLib) (oracle : EvalOracle)
    (board : BoardData) (ourColor : Bool) (depth : Int)
    (l : List (ChessMove × Int)) :
    (scoreCandidates lib oracle board ourColor depth l).2.1 =
      l.map fun p =>
        EngineCall.analyseCall (lib.push (BoardData.copyNoStack board) p.1)
          (max 4 (Int.fdiv depth 2)) := by
  induction l with
  | nil => rfl
  | cons p rest ih =>
    obtain ⟨move, count⟩ := p
    simp only [scoreCandidates, List.map_cons]
    split <;> simpa using ih

theorem scoreCandidates_proj (lib : ChessLib) (oracle : EvalOracle)
    (board : BoardData) (ourColor : Bool) (depth : Int)
    (l : List (ChessMove × Int)) :
    ∀ x ∈ (scoreCandidates lib oracle board ourColor depth l).1,
      (x.1, x.2.1) ∈ l := by
  induction l with
  | nil => simp [scoreCandidates]
  | cons p rest ih =>
    obtain ⟨move, count⟩ := p
    intro x hx
    simp only [scoreCandidates] at hx
    split at hx
    · exact List.mem_cons_of_mem _ (ih x hx)
    · exact List.mem_cons_of_mem _ (ih x hx)
    · rcases List.mem_cons.mp hx with rfl | hx
      · exact List.mem_cons_self _ _
      · exact List.mem_cons_of_mem _ (ih x hx)

theorem collectLegal_mem (lib : ChessLib) (board : BoardData)
    (l : List (String × Int)) :
    ∀ p ∈ collectLegalCandidates lib board l, p.1 ∈ board.legalMoves := by
  induction l with
  | nil => simp [collectLegalCandidates]
  | cons e rest ih =>
    obtain ⟨san, count⟩ := e
    intro p hp
    simp only [collectLegalCandidates] at hp
    split at hp
    · exact ih p hp
    · split at hp
      case isTrue hmem =>
        rcases List.mem_cons.mp hp with rfl | hp
        · exact hmem
        · exact ih p hp
      case isFalse => exact ih p hp

theorem collectLegal_nil (lib : ChessLib) (board : BoardData)
    (l : List (String × Int)) (h : board.legalMoves = []) :
    collectLegalCandidates lib board l = [] := by
  induction l with
  | nil => rfl
  | cons e rest ih =>
    obtain ⟨san, count⟩ := e
    simp only [collectLegalCandidates]
    split
    · exact ih
    · simp [h, ih]

theorem chooseFromScored_mem (cfg : YourStyleEngineConfig)
    (s0 : ChessMove × Int × Int) (rest : List (ChessMove × Int × Int)) :
    ∃ cnt sc, (chooseFromScored cfg s0 rest, cnt, sc) ∈ s0 :: rest := by
  unfold chooseFromScored
  split
  case h_1 heq =>
    refine ⟨(pyMaxFrom scoreOf s0 rest).2.1, (pyMaxFrom scoreOf s0 rest).2.2, ?_⟩
    simpa using pyMaxFrom_mem scoreOf s0 rest
  case h_2 f fs heq =>
    have hm := pyMaxFrom_mem cntOf f fs
    rw [← heq] at hm
    have hm2 := (List.mem_filter.mp hm).1
    refine ⟨(pyMaxFrom cntOf f fs).2.1, (pyMaxFrom cntOf f fs).2.2, ?_⟩
    simpa using hm2

theorem filterSelect_board (lib : ChessLib) (oracle : EvalOracle)
    (cfg : YourStyleEngineConfig) (board : BoardData)
    (l : List (ChessMove × Int)) :
    (filterSelect lib oracle cfg board l).2.2 = board := by
  cases l with
  | nil => rfl
  | cons sc scs =>
    simp only [filterSelect]
    split
    case h_1 tr b1 heq =>
      have hb := scoreCandidates_board lib oracle board board.turn
        (stockfish_depth_for_position cfg board)
        ((sc :: scs).take (max 1 cfg.maxCandidateMoves).toNat)
      rw [heq] at hb
      simpa using hb
    case h_2 s ss tr b1 heq =>
      have hb := scoreCandidates_board lib oracle board board.turn
        (stockfish_depth_for_position cfg board)
        ((sc :: scs).take (max 1 cfg.maxCandidateMoves).toNat)
      rw [heq] at hb
      simpa using hb

theorem fromCandidates_board (lib : ChessLib)
    (engineOpt : Option EvalOracle) (cfg : YourStyleEngineConfig)
    (board : BoardData) (l : List (ChessMove × Int)) :
    (fromCandidates lib engineOpt cfg board l).2.2 = board := by
  cases l with
  | nil => rfl
  | cons c cs =>
    cases engineOpt with
    | none => rfl
    | some oracle =>
      simp only [fromCandidates]
      split
      · rfl
      · exact filterSelect_board lib oracle cfg board _

theorem from_your_stats_board (lib : ChessLib)
    (engineOpt : Option EvalOracle) (cfg : YourStyleEngineConfig)
    (stats : FenStatsData) (board : BoardData) :
    (from_your_stats lib engineOpt cfg stats board).2.2 = board := by
  unfold from_your_stats
  split
  · rfl
  · split
    · rfl
    · exact fromCandidates_board lib engineOpt cfg board _

theorem from_stockfish_board (engineOpt : Option EvalOracle)
    (cfg : YourStyleEngineConfig) (board : BoardData) :
    (from_stockfish engineOpt cfg board).2.2 = board := by
  cases engineOpt with
  | none => rfl
  | some oracle =>
    simp only [from_stockfish]
    split <;> rfl

theorem filterSelect_legal (lib : ChessLib) (oracle : EvalOracle)
    (cfg : YourStyleEngineConfig) (board : BoardData)
    (l : List (ChessMove × Int))
    (hl : ∀ p ∈ l, p.1 ∈ board.legalMoves) (m : ChessMove)
    (hm : (filterSelect lib oracle cfg board l).1 = some m) :
    m ∈ board.legalMoves := by
  cases l with
  | nil => simp [filterSelect] at hm
  | cons sc scs =>
    simp only [filterSelect] at hm
    split at hm
    case h_1 tr b1 heq =>
      injection hm with h
      subst h
      exact hl _ (pyMaxFrom_mem countKey sc scs)
    case h_2 s ss tr b1 heq =>
      injection hm with h
      subst h
      obtain ⟨cnt, sc', hmem⟩ := chooseFromScored_mem cfg s ss
      have hproj := scoreCandidates_proj lib oracle board board.turn
        (stockfish_depth_for_position cfg board)
        ((sc :: scs).take (max 1 cfg.maxCandidateMoves).toNat)
      rw [heq] at hproj
      have htake := hproj _ hmem
      exact hl _ (List.take_subset _ _ htake)

theorem fromCandidates_legal (lib : ChessLib)
    (engineOpt : Option EvalOracle) (cfg : YourStyleEngineConfig)
    (board : BoardData) (l : List (ChessMove × Int))
    (hl : ∀ p ∈ l, p.1 ∈ board.legalMoves) (m : ChessMove)
    (hm : (fromCandidates lib engineOpt cfg board l).1 = some m) :
    m ∈ board.legalMoves := by
  cases l with
  | nil => simp [fromCandidates] at hm
  | cons c cs =>
    cases engineOpt with
    | none =>
      simp only [fromCandidates] at hm
      injection hm with h
      subst h
      exact hl _ (pyMaxFrom_mem countKey c cs)
    | some oracle =>
      simp only [fromCandidates] at hm
      split at hm
      · injection hm with h
        subst h
        exact hl _ (pyMaxFrom_mem countKey c cs)
      · refine filterSelect_legal lib oracle cfg board _ ?_ m hm
        intro p hp
        exact hl p ((sortDescBy_perm countKey (c :: cs)).mem_iff.mp hp)

theorem from_your_stats_legal (lib : ChessLib)
    (engineOpt : Option EvalOracle) (cfg : YourStyleEngineConfig)
    (stats : FenStatsData) (board : BoardData) (m : ChessMove)
    (hm : (from_your_stats lib engineOpt cfg stats board).1 = some m) :
    m ∈ board.legalMoves := by
  unfold from_your_stats at hm
  split at hm
  · simp at hm
  · split at hm
    · simp at hm
    · exact fromCandidates_legal lib engineOpt cfg board _
        (collectLegal_mem lib board _) m hm

theorem from_stockfish_val (engineOpt : Option EvalOracle)
    (cfg : YourStyleEngineConfig) (board : BoardData) (m : ChessMove)
    (hm : (from_stockfish engineOpt cfg board).1 = some m) :
    ∃ oracle, engineOpt = some oracle ∧
      oracle.play board (stockfish_depth_for_position cfg board) =
        some (some m) := by
  cases engineOpt with
  | none => simp [from_stockfish] at hm
  | some oracle =>
    simp only [from_stockfish] at hm
    split at hm
    · simp at hm
    case h_2 mv heq =>
      have h : mv = some m := hm
      rw [h] at heq
      exact ⟨oracle, rfl, heq⟩

theorem from_stockfish_calls (engineOpt : Option EvalOracle)
    (cfg : YourStyleEngineConfig) (board : BoardData) :
    ∀ call ∈ (from_stockfish engineOpt cfg board).2.1,
      call = .playCall board (stockfish_depth_for_position cfg board) := by
  cases engineOpt with
  | none => simp [from_stockfish]
  | some oracle =>
    simp only [from_stockfish]
    split <;> simp

theorem from_stockfish_trace_len (engineOpt : Option EvalOracle)
    (cfg : YourStyleEngineConfig) (board : BoardData) :
    (from_stockfish engineOpt cfg board).2.1.length ≤ 1 := by
  cases engineOpt with
  | none => simp [from_stockfish]
  | some oracle =>
    simp only [from_stockfish]
    split <;> simp

theorem from_stockfish_none_trace (cfg : YourStyleEngineConfig)
    (board : BoardData) :
    from_stockfish none cfg board = (none, [], board) := rfl

theorem from_your_stats_terminal (lib : ChessLib)
    (engineOpt : Option EvalOracle) (cfg : YourStyleEngineConfig)
    (stats : FenStatsData) (board : BoardData)
    (h : board.legalMoves = []) :
    from_your_stats lib engineOpt cfg stats board = (none, [], board) := by
  unfold from_your_stats
  split
  · rfl
  · split
    · rfl
    · rw [collectLegal_nil lib board _ h]
      rfl

theorem pick_move_of_stats (lib : ChessLib) (eng : YourStyleEngine)
    (board : BoardData) (m : ChessMove)
    (h : (from_your_stats lib eng.engineOpt eng.config eng.stats board).1
      = some m) :
    (pick_move lib eng board).1 = .ok m := by
  unfold pick_move
  split
  case h_1 mv tr b1 heq =>
    rw [heq] at h
    injection h with h1
    rw [h1]
  case h_2 tr b1 heq =>
    rw [heq] at h
    simp at h

theorem from_your_stats_filter_off (lib : ChessLib)
    (cfg : YourStyleEngineConfig) (stats : FenStatsData)
    (board : BoardData) (hfilter : cfg.useStockfishFilter = false)
    (e : Option EvalOracle) :
    (from_your_stats lib e cfg stats board).1
      = (from_your_stats lib none cfg stats board).1 := by
  cases hl : lookupStats stats board.fen with
  | none => simp [from_your_stats, hl]
  | some ms =>
    by_cases hms : ms = []
    · simp [from_your_stats, hl, hms]
    · simp only [from_your_stats, hl, if_neg hms]
      cases hc : collectLegalCandidates lib board ms with
      | nil => cases e <;> rfl
      | cons c cs =>
        cases e with
        | none => rfl
        | some o => simp [fromCandidates, hfilter]

theorem chooseFromScored_spec (cfg : YourStyleEngineConfig)
    (s0 : ChessMove × Int × Int) (rest : List (ChessMove × Int × Int))
    (hthr : 0 ≤ cfg.blunderThresholdCp) :
    ∃ cnt sc, (chooseFromScored cfg s0 rest, cnt, sc) ∈ s0 :: rest
      ∧ scoreOf (pyMaxFrom scoreOf s0 rest) - cfg.blunderThresholdCp ≤ sc
      ∧ ∀ x ∈ s0 :: rest,
          scoreOf (pyMaxFrom scoreOf s0 rest) - cfg.blunderThresholdCp
            ≤ scoreOf x → cntOf x ≤ cnt := by
  unfold chooseFromScored
  split
  case h_1 heq =>
    exfalso
    have hmem : pyMaxFrom scoreOf s0 rest ∈ (s0 :: rest).filter
        (fun mcs => decide
          (scoreOf (pyMaxFrom scoreOf s0 rest) - cfg.blunderThresholdCp
            ≤ scoreOf mcs)) := by
      refine List.mem_filter.mpr ⟨pyMaxFrom_mem scoreOf s0 rest, ?_⟩
      simp only [decide_eq_true_eq]
      omega
    rw [heq] at hmem
    simp at hmem
  case h_2 f fs heq =>
    have hmemf : pyMaxFrom cntOf f fs ∈ f :: fs := pyMaxFrom_mem cntOf f fs
    rw [← heq] at hmemf
    obtain ⟨hin, hcond⟩ := List.mem_filter.mp hmemf
    rw [decide_eq_true_eq] at hcond
    refine ⟨(pyMaxFrom cntOf f fs).2.1, (pyMaxFrom cntOf f fs).2.2,
      by simpa using hin, hcond, ?_⟩
    intro x hx hxthr
    have hxf : x ∈ f :: fs := by
      rw [← heq]
      exact List.mem_filter.mpr ⟨hx, by simpa using hxthr⟩
    exact pyMaxFrom_ge cntOf f fs x hxf

theorem intMoves_isOk (l : List (String × JValue)) :
    (intMoves l).isOk = l.all fun kv => (pyIntOfJson kv.2).isOk := by
  induction l with
  | nil => rfl
  | cons e rest ih =>
    obtain ⟨san, v⟩ := e
    simp only [List.all_cons]
    cases hv : pyIntOfJson v with
    | error e0 =>
      have hL : intMoves ((san, v) :: rest) = Except.error e0 := by
        simp only [intMoves]
        rw [hv]
        rfl
      rw [hL]
      rfl
    | ok n =>
      cases hr : intMoves rest with
      | error e1 =>
        rw [hr] at ih
        have hL : intMoves ((san, v) :: rest) = Except.error e1 := by
          simp only [intMoves]
          rw [hv, hr]
          rfl
        rw [hL, ← ih]
        rfl
      | ok t =>
        rw [hr] at ih
        have hL : intMoves ((san, v) :: rest) = Except.ok ((san, n) :: t) := by
          simp only [intMoves]
          rw [hv, hr]
          rfl
        rw [hL, ← ih]
        rfl

theorem loadEntries_isOk (l : List (String × JValue)) :
    (loadEntries l).isOk = isIntConvertibleMapping (.jobj l) := by
  induction l with
  | nil => rfl
  | cons e rest ih =>
    obtain ⟨fen, v⟩ := e
    cases v with
    | jobj inner =>
      have hall := intMoves_isOk inner
      have hrhs : isIntConvertibleMapping (.jobj ((fen, JValue.jobj inner) :: rest))
          = ((inner.all fun kv2 => (pyIntOfJson kv2.2).isOk)
              && isIntConvertibleMapping (.jobj rest)) := by
        simp [isIntConvertibleMapping, List.all_cons]
      rw [hrhs]
      cases hm : intMoves inner with
      | error e0 =>
        have hf : (inner.all fun kv2 => (pyIntOfJson kv2.2).isOk) = false := by
          rw [← hall, hm]
          rfl
        have hL : loadEntries ((fen, JValue.jobj inner) :: rest)
            = Except.error e0 := by
          simp only [loadEntries]
          rw [hm]
          rfl
        rw [hL, hf]
        rfl
      | ok msv =>
        have ht : (inner.all fun kv2 => (pyIntOfJson kv2.2).isOk) = true := by
          rw [← hall, hm]
          rfl
        rw [ht, Bool.true_and, ← ih]
        cases hr : loadEntries rest with
        | error e1 =>
          have hL : loadEntries ((fen, JValue.jobj inner) :: rest)
              = Except.error e1 := by
            simp only [loadEntries]
            rw [hm, hr]
            rfl
          rw [hL]
        | ok t =>
          have hL : loadEntries ((fen, JValue.jobj inner) :: rest)
              = Except.ok ((fen, msv) :: t) := by
            simp only [loadEntries]
            rw [hm, hr]
            rfl
          rw [hL]
          rfl
    | jnull => rfl
    | jbool b => rfl
    | jint n => rfl
    | jstr s => rfl
    | jarr elems => rfl

theorem loadEntries_keys (l : List (String × JValue)) (out : FenStatsData)
    (h : loadEntries l = .ok out) :
    out.map Prod.fst = l.map Prod.fst := by
  induction l generalizing out with
  | nil =>
    injection h with h1
    rw [← h1]
    rfl
  | cons e rest ih =>
    obtain ⟨fen, v⟩ := e
    cases v with
    | jobj inner =>
      simp only [loadEntries] at h
      cases hm : intMoves inner with
      | error e0 =>
        rw [hm] at h
        simp [bind, Except.bind] at h
      | ok msv =>
        rw [hm] at h
        cases hr : loadEntries rest with
        | error e1 =>
          rw [hr] at h
          simp [bind, Except.bind] at h
        | ok t =>
          rw [hr] at h
          simp only [bind, Except.bind, pure, Except.pure] at h
          injection h with h1
          rw [← h1]
          simp [ih t hr]
    | jnull => simp [loadEntries] at h
    | jbool b => simp [loadEntries] at h
    | jint n => simp [loadEntries] at h
    | jstr s => simp [loadEntries] at h
    | jarr elems => simp [loadEntries] at h

/-- C10: `pick_move` never mutates its input position: candidate moves
are pushed only onto fresh `copy(stack=False)` scratch boards, so the
final value of the caller's board object (pieces, side to move,
castling and en-passant data via the FEN, move counters, legal moves,
move stack) equals its initial value on every path, including
evaluator-failure paths. -/
theorem C10_pick_move_preserves_board (lib : ChessLib)
    (eng : YourStyleEngine) (board : BoardData) :
    (pick_move lib eng board).2.2 = board := by
  unfold pick_move
  split
  case h_1 move tr board1 heq =>
    have hb := from_your_stats_board lib eng.engineOpt eng.config eng.stats board
    rw [heq] at hb
    simpa using hb
  case h_2 tr board1 heq =>
    have hb := from_your_stats_board lib eng.engineOpt eng.config eng.stats board
    rw [heq] at hb
    simp only at hb
    split
    · split
      case h_1 move2 tr2 board2 heq2 =>
        have hb2 := from_stockfish_board eng.engineOpt eng.config board1
        rw [heq2] at hb2
        simp only at hb2
        rw [hb2, hb]
      case h_2 tr2 board2 heq2 =>
        have hb2 := from_stockfish_board eng.engineOpt eng.config board1
        rw [heq2] at hb2
        simp only at hb2
        split <;> rw [hb2, hb]
    · split <;> exact hb

/-- C6: the search depth chosen for Evaluator use equals the configured
endgame depth when the total piece count is at most the configured
endgame threshold, and the base depth otherwise, in particular at
threshold + 1 pieces. -/
theorem C6_depth_selection (cfg : YourStyleEngineConfig)
    (board : BoardData) :
    ((piece_count board : Int) ≤ cfg.endgamePieceCount →
      stockfish_depth_for_position cfg board = cfg.stockfishEndgameDepth)
    ∧ (¬ (piece_count board : Int) ≤ cfg.endgamePieceCount →
      stockfish_depth_for_position cfg board = cfg.stockfishDepth)
    ∧ ((piece_count board : Int) = cfg.endgamePieceCount + 1 →
      stockfish_depth_for_position cfg board = cfg.stockfishDepth) := by
  refine ⟨fun h => ?_, fun h => ?_, fun h => ?_⟩
  · simp [stockfish_depth_for_position, h]
  · simp [stockfish_depth_for_position, h]
  · have hgt : ¬ (piece_count board : Int) ≤ cfg.endgamePieceCount := by
      omega
    simp [stockfish_depth_for_position, hgt]

/-- Witness for C6 at the default configuration: the 5-piece sample
board gets the endgame depth 20, the 11-piece sample board (one piece
above the threshold 10) gets the base depth 12. -/
theorem C6_witness :
    stockfish_depth_for_position cfgDefault bTerm = 20
    ∧ stockfish_depth_for_position cfgDefault bMid = 12 :=
  ⟨(C6_depth_selection cfgDefault bTerm).1 (by decide),
   (C6_depth_selection cfgDefault bMid).2.2 (by decide)⟩

/-- C1: on every board with at least one legal move, `pick_move`
returns a legal move, for all preference tables (including
unresolvable or illegal entries), all configurations, and all
evaluator availability and failure patterns.  The `hplay` hypothesis
is the python-chess boundary guarantee that a `play` result move is
legal in the queried position (the library validates the engine's
best-move reply and raises otherwise, which `_from_stockfish`
catches). -/
theorem C1_pick_move_legal (lib : ChessLib) (eng : YourStyleEngine)
    (board : BoardData) (hne : board.legalMoves ≠ [])
    (hplay : ∀ o, eng.engineOpt = some o → ∀ b d m,
      o.play b d = some (some m) → m ∈ b.legalMoves) :
    ∃ m, (pick_move lib eng board).1 = .ok m ∧ m ∈ board.legalMoves := by
  unfold pick_move
  split
  case h_1 move tr board1 heq =>
    exact ⟨move, rfl,
      from_your_stats_legal lib eng.engineOpt eng.config eng.stats board move
        (by rw [heq])⟩
  case h_2 tr board1 heq =>
    have hb : board1 = board := by
      have hb := from_your_stats_board lib eng.engineOpt eng.config eng.stats board
      rw [heq] at hb
      simpa using hb
    subst hb
    split
    · split
      case h_1 move2 tr2 board2 heq2 =>
        obtain ⟨o, ho, hp⟩ := from_stockfish_val eng.engineOpt eng.config
          board1 move2 (by rw [heq2])
        exact ⟨move2, rfl, hplay o ho board1 _ move2 hp⟩
      case h_2 tr2 board2 heq2 =>
        have hb2 : board2 = board1 := by
          have hb2 := from_stockfish_board eng.engineOpt eng.config board1
          rw [heq2] at hb2
          simpa using hb2
        subst hb2
        split
        case h_1 hleg => exact absurd hleg hne
        case h_2 m rest hleg =>
          exact ⟨m, rfl, by rw [hleg]; exact List.mem_cons_self m rest⟩
    · split
      case h_1 hleg => exact absurd hleg hne
      case h_2 m rest hleg =>
        exact ⟨m, rfl, by rw [hleg]; exact List.mem_cons_self m rest⟩

/-- Witness for C1: with no evaluator and counts 10 and 3, `pick_move`
on the two-move sample board returns a legal move. -/
theorem C1_witness :
    bTwo.legalMoves ≠ []
    ∧ ∃ m, (pick_move libSample ⟨cfgDefault, statsTen, none⟩ bTwo).1 = .ok m
        ∧ m ∈ bTwo.legalMoves :=
  ⟨by decide,
   C1_pick_move_legal libSample ⟨cfgDefault, statsTen, none⟩ bTwo
     (by decide) (fun o h => Option.noConfusion h)⟩

/-- C2 (amended): on a board with zero legal moves, `pick_move` raises
the no-legal-move error and performs no per-candidate `analyse` calls;
however, when the fallback is enabled and an Evaluator is configured,
it performs one best-move (`engine.play`) Evaluator call first — which
cannot yield a legal move and so cannot prevent the error — so the
call trace contains at most one play request on the input board, and
is empty when no Evaluator is configured or the fallback is disabled.
The `hplay` hypothesis is the python-chess boundary guarantee from C1. -/
theorem C2_terminal_error (lib : ChessLib) (eng : YourStyleEngine)
    (board : BoardData) (hterm : board.legalMoves = [])
    (hplay : ∀ o, eng.engineOpt = some o → ∀ b d m,
      o.play b d = some (some m) → m ∈ b.legalMoves) :
    (pick_move lib eng board).1 = .error .noLegalMove
    ∧ (∀ call ∈ (pick_move lib eng board).2.1,
        call = .playCall board (stockfish_depth_for_position eng.config board))
    ∧ (pick_move lib eng board).2.1.length ≤ 1
    ∧ ((eng.engineOpt = none ∨ eng.config.useStockfishFallback = false) →
        (pick_move lib eng board).2.1 = []) := by
  have h1 := from_your_stats_terminal lib eng.engineOpt eng.config eng.stats
    board hterm
  unfold pick_move
  rw [h1]
  cases hfb : eng.config.useStockfishFallback with
  | false => simp [hfb, hterm]
  | true =>
    simp only [hfb, if_true]
    cases ho : eng.engineOpt with
    | none => simp [from_stockfish, hterm]
    | some o =>
      cases hp : o.play board (stockfish_depth_for_position eng.config board) with
      | none => simp [from_stockfish, hp, hterm, ho]
      | some mv =>
        cases mv with
        | none => simp [from_stockfish, hp, hterm, ho]
        | some m =>
          exact absurd (hplay o ho board _ m hp) (by simp [hterm])

/-- C2 counterexample: on a terminal board with an Evaluator configured
and the fallback enabled, `pick_move` raises the no-legal-move error
but performs one Evaluator call (`engine.play` at line 163 of
engine.py), refuting "performs no Evaluator calls ... regardless of
whether an Evaluator is configured and fallback enabled". -/
theorem C2_counterexample :
    bTerm.legalMoves = []
    ∧ (pick_move libSample ⟨cfgDefault, [], some oracleDown⟩ bTerm).1
        = .error .noLegalMove
    ∧ (pick_move libSample ⟨cfgDefault, [], some oracleDown⟩ bTerm).2.1
        ≠ [] := by
  refine ⟨rfl, rfl, ?_⟩
  have h : (pick_move libSample ⟨cfgDefault, [], some oracleDown⟩ bTerm).2.1
      = [.playCall bTerm 20] := rfl
  rw [h]
  exact List.cons_ne_nil _ _

/-- Witness for the amended C2 at a concrete terminal board with no
Evaluator configured: the error is raised and the trace is empty. -/
theorem C2_witness :
    bTerm.legalMoves = []
    ∧ (pick_move libSample ⟨cfgDefault, [], none⟩ bTerm).1
        = .error .noLegalMove
    ∧ (pick_move libSample ⟨cfgDefault, [], none⟩ bTerm).2.1 = [] := by
  have h := C2_terminal_error libSample ⟨cfgDefault, [], none⟩ bTerm rfl
    (fun o h => Option.noConfusion h)
  exact ⟨rfl, h.1, h.2.2.2 (Or.inl rfl)⟩

/-- C4: with no Evaluator configured or evaluator filtering disabled,
`pick_move` returns the legal preference candidate with the highest
count, ties broken by first-encountered order (the returned candidate
splits the candidate list so that everything before it has a strictly
smaller count and everything after it has a count at most its own). -/
theorem C4_highest_count (lib : ChessLib) (cfg : YourStyleEngineConfig)
    (stats : FenStatsData) (board : BoardData)
    (engineOpt : Option EvalOracle) (ms : List (String × Int))
    (c : ChessMove × Int) (cs : List (ChessMove × Int))
    (hlookup : lookupStats stats board.fen = some ms)
    (hms : ms ≠ [])
    (hcand : collectLegalCandidates lib board ms = c :: cs)
    (hgate : engineOpt = none ∨ cfg.useStockfishFilter = false) :
    ∃ m cnt l1 l2,
      (pick_move lib ⟨cfg, stats, engineOpt⟩ board).1 = .ok m
      ∧ c :: cs = l1 ++ (m, cnt) :: l2
      ∧ (∀ y ∈ l1, y.2 < cnt)
      ∧ (∀ y ∈ l2, y.2 ≤ cnt) := by
  have hfc : (fromCandidates lib engineOpt cfg board (c :: cs)).1
      = some (pyMaxFrom countKey c cs).1 := by
    rcases hgate with rfl | hf
    · rfl
    · cases engineOpt with
      | none => rfl
      | some o => simp [fromCandidates, hf]
  have hfys : (from_your_stats lib engineOpt cfg stats board).1
      = some (pyMaxFrom countKey c cs).1 := by
    simp only [from_your_stats, hlookup, if_neg hms, hcand]
    exact hfc
  have hpick := pick_move_of_stats lib ⟨cfg, stats, engineOpt⟩ board _ hfys
  obtain ⟨l1, l2, heq, hlt, hle⟩ := pyMaxFrom_first countKey c cs
  refine ⟨(pyMaxFrom countKey c cs).1, (pyMaxFrom countKey c cs).2, l1, l2,
    hpick, ?_, ?_, ?_⟩
  · rw [Prod.mk.eta]
    exact heq
  · intro y hy
    exact hlt y hy
  · intro y hy
    exact hle y hy

/-- Witness for C4 at the spec's instance: counts 10 and 3, no
Evaluator; `pick_move` returns the count-10 candidate e4. -/
theorem C4_witness :
    (∃ m, ∃ cnt : Int, ∃ l1 l2,
      (pick_move libSample ⟨cfgDefault, statsTen, none⟩ bTwo).1 = .ok m
      ∧ [(mvE4, (10 : Int)), (mvD4, 3)] = l1 ++ (m, cnt) :: l2
      ∧ (∀ y ∈ l1, y.2 < cnt)
      ∧ (∀ y ∈ l2, y.2 ≤ cnt))
    ∧ (pick_move libSample ⟨cfgDefault, statsTen, none⟩ bTwo).1
        = .ok mvE4 := by
  refine ⟨?_, rfl⟩
  exact C4_highest_count libSample cfgDefault statsTen bTwo none
    [("e4", 10), ("d4", 3)] (mvE4, 10) [(mvD4, 3)] rfl (by decide) rfl
    (Or.inl rfl)

/-- C5: with an Evaluator configured and filtering enabled, if every
per-candidate evaluation fails or yields no score (the scored list is
empty), `_from_your_stats` does not abort: it returns the
highest-count candidate of the original unfiltered candidate list
(Python `max` over the in-place-sorted list, which by stability of the
sort coincides with the first maximum of the original list), and
`pick_move` returns the same move as with no Evaluator configured. -/
theorem C5_all_fail_fallback (lib : ChessLib) (cfg : YourStyleEngineConfig)
    (stats : FenStatsData) (board : BoardData) (o : EvalOracle)
    (ms : List (String × Int))
    (c : ChessMove × Int) (cs : List (ChessMove × Int))
    (sc : ChessMove × Int) (scs : List (ChessMove × Int))
    (tr : List EngineCall) (b1 : BoardData)
    (hlookup : lookupStats stats board.fen = some ms)
    (hms : ms ≠ [])
    (hcand : collectLegalCandidates lib board ms = c :: cs)
    (hfilter : cfg.useStockfishFilter = true)
    (hsort : sortDescBy countKey (c :: cs) = sc :: scs)
    (hfail : scoreCandidates lib o board board.turn
        (stockfish_depth_for_position cfg board)
        ((sc :: scs).take (max 1 cfg.maxCandidateMoves).toNat)
      = ([], tr, b1)) :
    (from_your_stats lib (some o) cfg stats board).1
      = some (pyMaxFrom countKey c cs).1
    ∧ (from_your_stats lib none cfg stats board).1
      = some (pyMaxFrom countKey c cs).1
    ∧ (pick_move lib ⟨cfg, stats, some o⟩ board).1
      = (pick_move lib ⟨cfg, stats, none⟩ board).1 := by
  have hfys1 : (from_your_stats lib (some o) cfg stats board).1
      = some (pyMaxFrom countKey c cs).1 := by
    simp only [from_your_stats, hlookup, if_neg hms, hcand]
    simp only [fromCandidates, hfilter, Bool.not_true]
    rw [if_neg (by simp), hsort]
    simp only [filterSelect, hfail]
    rw [pyMaxFrom_sortDescBy countKey c cs sc scs hsort]
  have hfys2 : (from_your_stats lib none cfg stats board).1
      = some (pyMaxFrom countKey c cs).1 := by
    simp only [from_your_stats, hlookup, if_neg hms, hcand]
    rfl
  have hp1 := pick_move_of_stats lib ⟨cfg, stats, some o⟩ board _ hfys1
  have hp2 := pick_move_of_stats lib ⟨cfg, stats, none⟩ board _ hfys2
  exact ⟨hfys1, hfys2, by rw [hp1, hp2]⟩

/-- Witness for C5: counts 20 and 100 with an always-failing Evaluator;
both the evaluator engine and the no-evaluator engine pick the
count-100 candidate d4. -/
theorem C5_witness :
    (from_your_stats libSample (some oracleDown) cfgDefault statsSample
      bTwo).1 = some mvD4
    ∧ (from_your_stats libSample none cfgDefault statsSample bTwo).1
        = some mvD4
    ∧ (pick_move libSample ⟨cfgDefault, statsSample, some oracleDown⟩ bTwo).1
        = (pick_move libSample ⟨cfgDefault, statsSample, none⟩ bTwo).1 := by
  have h := C5_all_fail_fallback libSample cfgDefault statsSample bTwo
    oracleDown [("e4", 20), ("d4", 100)] (mvE4, 20) [(mvD4, 100)]
    (mvD4, 100) [(mvE4, 20)] _ _ rfl (by decide) rfl rfl rfl rfl
  exact ⟨h.1, h.2.1, h.2.2⟩

/-- C3: with an Evaluator configured, filtering enabled, and every
evaluated candidate scored (`hall`), the returned move is a scored
candidate whose score is within `blunder_threshold_cp` of the maximum
score `bestScore`, and among all such surviving candidates it has the
maximal observed count; every candidate scoring below
`bestScore - blunder_threshold_cp` is excluded. -/
theorem C3_blunder_filter (lib : ChessLib) (cfg : YourStyleEngineConfig)
    (stats : FenStatsData) (board : BoardData) (o : EvalOracle)
    (ms : List (String × Int))
    (c : ChessMove × Int) (cs : List (ChessMove × Int))
    (sc : ChessMove × Int) (scs : List (ChessMove × Int))
    (s : ChessMove × Int × Int) (ss : List (ChessMove × Int × Int))
    (tr : List EngineCall) (b1 : BoardData) (bestScore : Int)
    (hlookup : lookupStats stats board.fen = some ms)
    (hms : ms ≠ [])
    (hcand : collectLegalCandidates lib board ms = c :: cs)
    (hfilter : cfg.useStockfishFilter = true)
    (hsort : sortDescBy countKey (c :: cs) = sc :: scs)
    (hscore : scoreCandidates lib o board board.turn
        (stockfish_depth_for_position cfg board)
        ((sc :: scs).take (max 1 cfg.maxCandidateMoves).toNat)
      = (s :: ss, tr, b1))
    (_hall : (s :: ss).map (fun x => (x.1, x.2.1))
        = (sc :: scs).take (max 1 cfg.maxCandidateMoves).toNat)
    (hthr : 0 ≤ cfg.blunderThresholdCp)
    (hbest_mem : bestScore ∈ (s :: ss).map scoreOf)
    (hbest_ge : ∀ x ∈ s :: ss, scoreOf x ≤ bestScore) :
    ∃ m, ∃ cnt sc0 : Int,
      (pick_move lib ⟨cfg, stats, some o⟩ board).1 = .ok m
      ∧ (m, cnt, sc0) ∈ s :: ss
      ∧ bestScore - cfg.blunderThresholdCp ≤ sc0
      ∧ ∀ x ∈ s :: ss,
          bestScore - cfg.blunderThresholdCp ≤ scoreOf x → cntOf x ≤ cnt := by
  have hfys : (from_your_stats lib (some o) cfg stats board).1
      = some (chooseFromScored cfg s ss) := by
    simp only [from_your_stats, hlookup, if_neg hms, hcand]
    simp only [fromCandidates, hfilter, Bool.not_true]
    rw [if_neg (by simp), hsort]
    simp only [filterSelect, hscore]
  have hpick := pick_move_of_stats lib ⟨cfg, stats, some o⟩ board _ hfys
  have hbs : scoreOf (pyMaxFrom scoreOf s ss) = bestScore := by
    apply le_antisymm
    · exact hbest_ge _ (pyMaxFrom_mem scoreOf s ss)
    · obtain ⟨x, hx, hxe⟩ := List.mem_map.mp hbest_mem
      rw [← hxe]
      exact pyMaxFrom_ge scoreOf s ss x hx
  obtain ⟨cnt, sc0, hmem, hsc0, hmax⟩ := chooseFromScored_spec cfg s ss hthr
  rw [hbs] at hsc0 hmax
  exact ⟨chooseFromScored cfg s ss, cnt, sc0, hpick, hmem, hsc0, hmax⟩

/-- Witness for C3 at the spec's instance: threshold 200, candidates
scoring 50 (count 20) and -400 (count 100); the -400 candidate is
excluded and the 50-scoring candidate e4 is returned despite its lower
count. -/
theorem C3_witness :
    (∃ m, ∃ cnt sc0 : Int,
      (pick_move libSample ⟨cfgDefault, statsSample, some oracleScores⟩
        bTwo).1 = .ok m
      ∧ (m, cnt, sc0) ∈ [(mvD4, (100 : Int), (-400 : Int)), (mvE4, 20, 50)]
      ∧ (50 : Int) - 200 ≤ sc0
      ∧ ∀ x ∈ [(mvD4, (100 : Int), (-400 : Int)), (mvE4, 20, 50)],
          (50 : Int) - 200 ≤ scoreOf x → cntOf x ≤ cnt)
    ∧ (pick_move libSample ⟨cfgDefault, statsSample, some oracleScores⟩
        bTwo).1 = .ok mvE4 := by
  refine ⟨?_, rfl⟩
  exact C3_blunder_filter libSample cfgDefault statsSample bTwo oracleScores
    [("e4", 20), ("d4", 100)] (mvE4, 20) [(mvD4, 100)] (mvD4, 100)
    [(mvE4, 20)] (mvD4, 100, -400) [(mvE4, 20, 50)] _ _ 50 rfl (by decide)
    rfl rfl rfl rfl rfl (by decide) (by decide) (by decide)

/-- C7: in evaluator-filtered selection the trace of Evaluator
requests is exactly one `analyse` call per taken candidate, where the
taken candidates are the first `max(1, max_candidate_moves)` of the
candidate list sorted by count descending (a permutation of the
original list), and every request is bounded to depth
`max(4, depth // 2)` with Python floor division; in particular at most
`max(1, max_candidate_moves)` candidates are evaluated. -/
theorem C7_eval_budget (lib : ChessLib) (cfg : YourStyleEngineConfig)
    (stats : FenStatsData) (board : BoardData) (o : EvalOracle)
    (ms : List (String × Int))
    (c : ChessMove × Int) (cs : List (ChessMove × Int))
    (sc : ChessMove × Int) (scs : List (ChessMove × Int))
    (hlookup : lookupStats stats board.fen = some ms)
    (hms : ms ≠ [])
    (hcand : collectLegalCandidates lib board ms = c :: cs)
    (hfilter : cfg.useStockfishFilter = true)
    (hsort : sortDescBy countKey (c :: cs) = sc :: scs) :
    (from_your_stats lib (some o) cfg stats board).2.1
      = ((sc :: scs).take (max 1 cfg.maxCandidateMoves).toNat).map
          (fun p => EngineCall.analyseCall
            (lib.push (BoardData.copyNoStack board) p.1)
            (max 4 (Int.fdiv (stockfish_depth_for_position cfg board) 2)))
    ∧ (sc :: scs).Perm (c :: cs)
    ∧ (sc :: scs).Pairwise (fun a b => countKey b ≤ countKey a)
    ∧ (from_your_stats lib (some o) cfg stats board).2.1.length
        ≤ (max 1 cfg.maxCandidateMoves).toNat := by
  have htr : (from_your_stats lib (some o) cfg stats board).2.1
      = (scoreCandidates lib o board board.turn
          (stockfish_depth_for_position cfg board)
          ((sc :: scs).take (max 1 cfg.maxCandidateMoves).toNat)).2.1 := by
    simp only [from_your_stats, hlookup, if_neg hms, hcand]
    simp only [fromCandidates, hfilter, Bool.not_true]
    rw [if_neg (by simp), hsort]
    simp only [filterSelect]
    split
    case h_1 tr b1 heq => rw [heq]
    case h_2 s ss tr b1 heq => rw [heq]
  have hmap := scoreCandidates_trace lib o board board.turn
    (stockfish_depth_for_position cfg board)
    ((sc :: scs).take (max 1 cfg.maxCandidateMoves).toNat)
  refine ⟨htr.trans hmap, ?_, ?_, ?_⟩
  · rw [← hsort]
    exact sortDescBy_perm countKey (c :: cs)
  · rw [← hsort]
    exact sortDescBy_pairwise countKey (c :: cs)
  · rw [htr.trans hmap, List.length_map]
    exact List.length_take_le _ _

/-- Witness for C7 at a concrete instance with the default budget 3. -/
theorem C7_witness :
    (from_your_stats libSample (some oracleDown) cfgDefault statsSample
      bTwo).2.1
      = ([(mvD4, (100 : Int)), (mvE4, 20)].take
          (max 1 cfgDefault.maxCandidateMoves).toNat).map
          (fun p => EngineCall.analyseCall
            (libSample.push (BoardData.copyNoStack bTwo) p.1)
            (max 4 (Int.fdiv (stockfish_depth_for_position cfgDefault bTwo) 2)))
    ∧ [(mvD4, (100 : Int)), (mvE4, 20)].Perm [(mvE4, 20), (mvD4, 100)]
    ∧ [(mvD4, (100 : Int)), (mvE4, 20)].Pairwise
        (fun a b => countKey b ≤ countKey a)
    ∧ (from_your_stats libSample (some oracleDown) cfgDefault statsSample
        bTwo).2.1.length ≤ (max 1 cfgDefault.maxCandidateMoves).toNat :=
  C7_eval_budget libSample cfgDefault statsSample bTwo oracleDown
    [("e4", 20), ("d4", 100)] (mvE4, 20) [(mvD4, 100)] (mvD4, 100)
    [(mvE4, 20)] rfl (by decide) rfl rfl rfl

/-- C8 (amended): two `select` calls on the identical position return
the identical move when no Evaluator is configured for either call, or
when evaluator filtering is disabled and the preference lookup yields
a candidate (so the Evaluator, whose responses `o1`/`o2` may differ
between the two calls, is never consulted).  When filtering is
disabled but the preference lookup yields no candidate, the
evaluator-fallback path may return different moves across calls (see
the counterexample). -/
theorem C8_two_call_agreement (lib : ChessLib)
    (cfg : YourStyleEngineConfig) (stats : FenStatsData)
    (board : BoardData) (o1 o2 : Option EvalOracle)
    (h : (o1 = none ∧ o2 = none)
      ∨ (cfg.useStockfishFilter = false
          ∧ ((from_your_stats lib none cfg stats board).1).isSome = true)) :
    (pick_move lib ⟨cfg, stats, o1⟩ board).1
      = (pick_move lib ⟨cfg, stats, o2⟩ board).1 := by
  rcases h with ⟨h1, h2⟩ | ⟨hfilter, hsome⟩
  · subst h1
    subst h2
    rfl
  · obtain ⟨m, hm⟩ := Option.isSome_iff_exists.mp hsome
    have k1 : (from_your_stats lib o1 cfg stats board).1 = some m :=
      (from_your_stats_filter_off lib cfg stats board hfilter o1).trans hm
    have k2 : (from_your_stats lib o2 cfg stats board).1 = some m :=
      (from_your_stats_filter_off lib cfg stats board hfilter o2).trans hm
    rw [pick_move_of_stats lib ⟨cfg, stats, o1⟩ board m k1,
      pick_move_of_stats lib ⟨cfg, stats, o2⟩ board m k2]

/-- C8 counterexample: with filtering disabled but an Evaluator
configured and no preference data, the fallback best-move Evaluator
call decides the move, so two calls whose Evaluator responds
differently return different moves — refuting determinism for the
"filtering disabled" half of the claim's configuration condition. -/
theorem C8_counterexample :
    cfgNoFilter.useStockfishFilter = false
    ∧ (pick_move libSample ⟨cfgNoFilter, [], some oraclePlaysE4⟩ bTwo).1
        ≠ (pick_move libSample ⟨cfgNoFilter, [], some oraclePlaysD4⟩ bTwo).1 := by
  refine ⟨rfl, ?_⟩
  have h1 : (pick_move libSample ⟨cfgNoFilter, [], some oraclePlaysE4⟩
      bTwo).1 = .ok mvE4 := rfl
  have h2 : (pick_move libSample ⟨cfgNoFilter, [], some oraclePlaysD4⟩
      bTwo).1 = .ok mvD4 := rfl
  rw [h1, h2]
  intro hc
  exact (by decide : mvE4 ≠ mvD4) (Except.ok.inj hc)

/-- Witness for the amended C8: filter disabled, preference data
present; the two calls agree although their oracles differ. -/
theorem C8_witness :
    (pick_move libSample ⟨cfgNoFilter, statsSample, some oraclePlaysE4⟩
      bTwo).1
      = (pick_move libSample ⟨cfgNoFilter, statsSample, some oraclePlaysD4⟩
          bTwo).1 :=
  C8_two_call_agreement libSample cfgNoFilter statsSample bTwo
    (some oraclePlaysE4) (some oraclePlaysD4) (Or.inr ⟨rfl, rfl⟩)

/-- C9 (amended): `load_fen_stats` succeeds exactly when the data is a
mapping whose values are mappings from strings to values Python
`int()` accepts — so ints of any sign, bools, and integer-shaped
strings are accepted (with silent coercion) rather than rejected — and
a successful load preserves every position key, never substituting
empty data. -/
theorem C9_load_characterisation (d : JValue) :
    ((load_fen_stats d).isOk = isIntConvertibleMapping d)
    ∧ (∀ fields out, d = .jobj fields → load_fen_stats d = .ok out →
        out.map Prod.fst = fields.map Prod.fst) := by
  constructor
  · cases d with
    | jobj fields => exact loadEntries_isOk fields
    | jnull => rfl
    | jbool b => rfl
    | jint n => rfl
    | jstr s => rfl
    | jarr elems => rfl
  · intro fields out hd hload
    subst hd
    exact loadEntries_keys fields out hload

/-- C9 counterexample: data carrying the negative integer count -1 is
not a mapping to non-negative integer counts, yet `load_fen_stats`
accepts it unchanged — refuting "fails ... exactly when the backing
data is not a mapping ... to non-negative integer counts". -/
theorem C9_counterexample :
    load_fen_stats (.jobj [("k", .jobj [("e4", .jint (-1))])])
      = .ok [("k", [("e4", -1)])]
    ∧ isNonNegIntMapping (.jobj [("k", .jobj [("e4", .jint (-1))])])
        = false :=
  ⟨rfl, rfl⟩

/-- Witness for the amended C9 at data whose count is the boolean
`true` (Python `int(True) = 1`): the load succeeds with the coerced
count and preserves the position key. -/
theorem C9_witness :
    ((load_fen_stats (.jobj [("k", .jobj [("e4", .jbool true)])])).isOk
       = isIntConvertibleMapping (.jobj [("k", .jobj [("e4", .jbool true)])]))
    ∧ [("k", [("e4", (1 : Int))])].map Prod.fst
       = [("k", JValue.jobj [("e4", .jbool true)])].map Prod.fst :=
  ⟨(C9_load_characterisation _).1,
   (C9_load_characterisation _).2 [("k", .jobj [("e4", .jbool true)])]
     [("k", [("e4", 1)])] rfl (by rfl)⟩
